import Mathlib

/-!
Verification of the `template1` content pipeline (`pipeline/util.py`,
`pipeline/reddit.py`, `pipeline/generate.py`) against its natural-language
specification.  The Python code is shallowly embedded: strings are `String` /
`List Char` (the pipeline only manipulates ASCII text, so Python's
Unicode-aware primitives are modelled by their ASCII behaviour), Python sets
of strings are `Finset String`, float arithmetic on small rationals is
modelled exactly over `ℚ`, fallible code returns `Except`, and the
network/filesystem effects of the one-shot run are modelled as explicit
oracle inputs and an event trace.
-/

namespace Pipeline

/-! ### Python string primitives used by the pipeline -/

/-- Whitespace recognized by Python's `str.strip`, `str.split` and the regex
class `\s` (ASCII fragment). -/
def pyIsSpace (c : Char) : Bool :=
  decide (c = ' ' ∨ c = '\t' ∨ c = '\n' ∨ c = '\r' ∨ c = '\x0b' ∨ c = '\x0c')

/-- Python `str.lstrip()`. -/
def pyLstrip (l : List Char) : List Char := l.dropWhile pyIsSpace

/-- Python `str.rstrip()`. -/
def pyRstrip (l : List Char) : List Char := (l.reverse.dropWhile pyIsSpace).reverse

/-- Python `str.strip()`. -/
def pyStrip (l : List Char) : List Char := pyRstrip (pyLstrip l)

/-- Accumulator-passing scan behind `splitWs`; `acc` holds the current token
reversed. -/
def splitWsAux : List Char → List Char → List (List Char)
  | [], acc => if acc = [] then [] else [acc.reverse]
  | c :: cs, acc =>
    if pyIsSpace c then
      if acc = [] then splitWsAux cs [] else acc.reverse :: splitWsAux cs []
    else splitWsAux cs (c :: acc)

/-- Python `str.split()` with no separator: split on whitespace runs,
returning no empty parts. -/
def splitWs (l : List Char) : List (List Char) := splitWsAux l []

/-- Does `pat` occur at the head of the second list (used for Python's
substring operator)? -/
def headSub : List Char → List Char → Bool
  | [], _ => true
  | _ :: _, [] => false
  | p :: ps, x :: xs => p = x && headSub ps xs

/-- Python substring containment `pat in s` (contiguous substring). -/
def containsSub (pat : List Char) : List Char → Bool
  | [] => headSub pat []
  | x :: xs => headSub pat (x :: xs) || containsSub pat xs

/-- Python `str.lower()` (ASCII). -/
def lowerStr (s : String) : String := String.mk (s.data.map Char.toLower)

/-! ### `pipeline/util.py` -/

/-- `util.normalize_url`: strip outer whitespace, remove everything from the
first `?` or `#` on (the regex `[?#].*$`), then drop trailing slashes. -/
def normalize_url (u : String) : String :=
  let l := pyStrip u.data
  let l := l.takeWhile (fun c => decide (c ≠ '?' ∧ c ≠ '#'))
  String.mk ((l.reverse.dropWhile (fun c => decide (c = '/'))).reverse)

/-- `util.simple_tokens`: lowercase, replace every character outside
`[a-z0-9\s]` by a space, split on whitespace, keep the tokens of length
strictly greater than 2, return them as a set. -/
def simple_tokens (s : String) : Finset String :=
  let t := (s.data.map Char.toLower).map
    (fun c => if ('a' ≤ c ∧ c ≤ 'z') ∨ ('0' ≤ c ∧ c ≤ '9') ∨ pyIsSpace c then c else ' ')
  (((splitWs t).filter (fun p => 2 < p.length)).map String.mk).toFinset

/-- `util.jaccard`, with the float division modelled exactly over `ℚ`. -/
def jaccard (a b : Finset String) : ℚ :=
  if a = ∅ ∧ b = ∅ then 1
  else if a = ∅ ∨ b = ∅ then 0
  else
    let inter := (a ∩ b).card
    let union := (a ∪ b).card
    if union ≠ 0 then (inter : ℚ) / union else 0

/-- `generate.is_blocked`: case-insensitive keyword substring test against
the title. -/
def is_blocked (title : String) (blocked_kw : List String) : Bool :=
  blocked_kw.any (fun kw => containsSub (lowerStr kw).data (lowerStr title).data)

/-! ### `util.sanitize_llm_html`: `re.sub(r"(?is)<\s*script\b", "&lt;script", s)` -/

/-- Python regex `\w` (ASCII fragment), for the `\b` boundary. -/
def pyWordChar (c : Char) : Bool :=
  decide (('a' ≤ c ∧ c ≤ 'z') ∨ ('A' ≤ c ∧ c ≤ 'Z') ∨ ('0' ≤ c ∧ c ≤ '9') ∨ c = '_')

/-- The `\b` word-boundary check after the final `t` of `script`: succeeds
when the next character is not a word character (or at the end). -/
def bdry : List Char → Option (List Char)
  | [] => some []
  | d :: rest => if pyWordChar d then none else some (d :: rest)

/-- Case-insensitive match of the remaining literal pattern characters,
then the boundary check; returns the unconsumed remainder on success. -/
def matchFrom : List Char → List Char → Option (List Char)
  | [], x => bdry x
  | _ :: _, [] => none
  | t :: ps, x :: xs => if x.toLower = t then matchFrom ps xs else none

/-- The literal characters of the pattern body `script`. -/
def scriptPat : List Char := ['s', 'c', 'r', 'i', 'p', 't']

/-- One attempted match of `(?is)<\s*script\b` at the head of the list:
a `<`, the maximal whitespace run (greedy `\s*`; backtracking cannot help
since no whitespace character matches `s`), then `script` case-insensitively
and the word boundary.  Returns the remainder after the match. -/
def tryMatch (l : List Char) : Option (List Char) :=
  match l with
  | [] => none
  | c :: r => if c = '<' then matchFrom scriptPat (r.dropWhile pyIsSpace) else none

/-- The replacement text `&lt;script`. -/
def scriptRepl : List Char := '&' :: 'l' :: 't' :: ';' :: scriptPat

/-- Fuelled left-to-right scan of `re.sub`: at each position try the pattern;
on a match emit the replacement and continue after the match, otherwise copy
one character.  `fuel ≥ length` always suffices (each step consumes at least
one character). -/
def subScriptF : Nat → List Char → List Char
  | 0, l => l
  | _ + 1, [] => []
  | f + 1, c :: cs =>
    match tryMatch (c :: cs) with
    | some rest => scriptRepl ++ subScriptF f rest
    | none => c :: subScriptF f cs

/-- The `re.sub` scan at adequate fuel. -/
def subScript (l : List Char) : List Char := subScriptF l.length l

/-- Python `re.search` for `(?is)<\s*script\b`: does the pattern match at
some position? -/
def hasMatch : List Char → Bool
  | [] => false
  | c :: cs => (tryMatch (c :: cs)).isSome || hasMatch cs

/-- `util.sanitize_llm_html`. -/
def sanitize_llm_html (s : String) : String := String.mk (subScript s.data)

/-! ### `generate.deepseek_article` output parsing:
`re.match(r"(?is)^\s*TITLE:\s*(.+?)\s*\n\s*\n(.*)$", out)` on the stripped
output.  The backtracking engine is embedded by its observable behaviour:
the leading `\s*` is empty on a stripped string; the header `TITLE:` matches
case-insensitively; the greedy `\s*` after the header takes the maximal
whitespace run `m`; the lazy `(.+?)` then searches for the shortest nonempty
title group after `m` followed by the separator `\s*\n\s*\n` (which, matched
greedily, consumes the maximal whitespace run at its position provided that
run contains at least two newlines, through that run's last newline); if no
such split exists the engine backtracks the header `\s*` into the title
group, which succeeds exactly when `m` past its first character still
contains two newlines and then yields a whitespace title group (stripped to
empty by the caller, modelled as the empty group here) and the body after
`m`. -/

/-- Case-insensitive match of the literal header `TITLE:` at the head of the
stripped output; returns the remainder. -/
def titleHeader : List Char → Option (List Char)
  | t :: i :: t2 :: l :: e :: c :: rest =>
    if t.toLower = 't' ∧ i.toLower = 'i' ∧ t2.toLower = 't' ∧ l.toLower = 'l' ∧
        e.toLower = 'e' ∧ c = ':' then some rest
    else none
  | _ => none

/-- The separator `\s*\n\s*\n` matched greedily at the head of `l`: succeeds
iff the maximal whitespace run at the head contains at least two newlines,
consuming through the run's last newline; returns the remainder. -/
def sepMatch (l : List Char) : Option (List Char) :=
  let run := l.takeWhile pyIsSpace
  if 2 ≤ run.count '\n' then
    some ((run.reverse.takeWhile (fun c => decide (c ≠ '\n'))).reverse ++ l.drop run.length)
  else none

/-- The lazy `(.+?)`: the shortest nonempty title group such that the
separator matches immediately after it; returns the group and the body. -/
def findTitle (acc : List Char) : List Char → Option (List Char × List Char)
  | [] => none
  | c :: rest =>
    match sepMatch rest with
    | some b => some (acc ++ [c], b)
    | none => findTitle (acc ++ [c]) rest

/-- The whole regex on the stripped output `o`: header, then the two groups
(title group, body group). -/
def deepseekMatch (o : List Char) : Option (List Char × List Char) :=
  match titleHeader o with
  | none => none
  | some r =>
    let m := r.takeWhile pyIsSpace
    match findTitle [] (r.drop m.length) with
    | some (g1, b) => some (g1, b)
    | none =>
      if 2 ≤ (m.drop 1).count '\n' then
        some ([],
          (m.reverse.takeWhile (fun c => decide (c ≠ '\n'))).reverse ++ r.drop m.length)
      else none

/-- `generate.deepseek_article` lines 232–243: strip the model output, try
the title regex; on a match return the stripped group 1 and the stripped,
sanitized group 2; otherwise fall back to the stripped candidate title and
the entire stripped output, sanitized. -/
def deepseek_parse (out title : String) : String × String :=
  let t0 := String.mk (pyStrip title.data)
  let o := pyStrip out.data
  match deepseekMatch o with
  | some (g1, g2) =>
      (String.mk (pyStrip g1), sanitize_llm_html (String.mk (pyStrip g2)))
  | none => (t0, sanitize_llm_html (String.mk o))

/-! ### `pipeline/reddit.py` -/

/-- `reddit._safe_image`: the "safe-ish allowlist" — returns the stripped URL
when it contains `i.redd.it/` or `preview.redd.it/` as a substring, otherwise
the empty string. -/
def safe_image (url : String) : String :=
  if url = "" then ""
  else
    let u := pyStrip url.data
    if containsSub "i.redd.it/".data u then String.mk u
    else if containsSub "preview.redd.it/".data u then String.mk u
    else ""

/-- The hero-image classification expression of `reddit.fetch_rss_entries`:
`"reddit_image" if "i.redd.it/" in img else ("reddit_preview" if
"preview.redd.it/" in img else "none")`. -/
def hero_image_kind_of (img : String) : String :=
  if containsSub "i.redd.it/".data img.data then "reddit_image"
  else if containsSub "preview.redd.it/".data img.data then "reddit_preview"
  else "none"

/-- Modelled from the spec: the host a URL is "hosted on" — the authority
component between the `://` separator and the next `/`, `?` or `#`.  Used
only to state the claim's "hosted on one of the two trusted hosts". -/
def afterScheme : List Char → Option (List Char)
  | [] => none
  | ':' :: '/' :: '/' :: r => some r
  | _ :: xs => afterScheme xs

/-- Modelled from the spec: the host component of a URL (see `afterScheme`). -/
def urlHost (url : String) : String :=
  match afterScheme url.data with
  | some r => String.mk (r.takeWhile (fun c => decide (c ≠ '/' ∧ c ≠ '?' ∧ c ≠ '#')))
  | none => ""

/-! ### `pipeline/generate.py`: data model -/

/-- A feed entry as produced by `reddit.fetch_rss_entries`, together with
the `image_url` / `image_kind` keys that `pick_candidate` adds to a
surviving candidate. -/
structure Entry where
  title : String := ""
  link : String := ""
  summary : String := ""
  published : String := ""
  rss : String := ""
  hero_image : String := ""
  hero_image_kind : String := "none"
  image_url : String := ""
  image_kind : String := "none"
deriving DecidableEq, Repr

/-- An archived article (an element of `data/articles.json`). -/
structure Article where
  id : String := ""
  title : String := ""
  path : String := ""
  published_ts : String := ""
  source_url : String := ""
  rss : String := ""
  summary : String := ""
  body_html : String := ""
  hero_image : String := ""
  hero_image_kind : String := "none"
deriving DecidableEq, Repr

/-- The configuration fields read by `pick_candidate` and `main`, with the
source's defaults for missing keys. -/
structure Config where
  blocked_keywords : List String := []
  reddit_rss : List String := []
  pick_random : Bool := false
  base_url : String := ""

/-! ### `generate.pick_candidate` -/

/-- `pick_candidate`'s mutation of a surviving entry:
`e["image_url"] = e.get("hero_image", "") or ""` and
`e["image_kind"] = e.get("hero_image_kind", "none") or "none"`. -/
def setImg (e : Entry) : Entry :=
  { e with
    image_url := e.hero_image
    image_kind := if e.hero_image_kind = "" then "none" else e.hero_image_kind }

/-- The past-title token sets `pick_candidate` compares against:
`[simple_tokens(t) for t in prev_titles if t]`. -/
def prevTok (articles : List Article) : List (Finset String) :=
  (articles.map (fun a => a.title)).filterMap
    (fun t => if t = "" then none else some (simple_tokens t))

/-- The per-entry exclusion test of `pick_candidate`'s loop: empty or
already-processed normalized link, a blocked keyword in the title, or
Jaccard similarity at least 0.78 with some past-title token set. -/
def entryExcluded (blocked_kw processed : List String)
    (prev_tok : List (Finset String)) (e : Entry) : Bool :=
  let link := normalize_url e.link
  decide (link = "") || decide (link ∈ processed) ||
    is_blocked e.title blocked_kw ||
    prev_tok.any (fun pt => decide ((0.78 : ℚ) ≤ jaccard (simple_tokens e.title) pt))

/-- The exclusion predicate as the claim words it: the similarity clause
ranges over the token sets of all past articles' titles, with no
nonempty-title filter. -/
def claimExcluded (blocked_kw processed : List String)
    (articles : List Article) (e : Entry) : Bool :=
  let link := normalize_url e.link
  decide (link = "") || decide (link ∈ processed) ||
    is_blocked e.title blocked_kw ||
    articles.any (fun a =>
      decide ((0.78 : ℚ) ≤ jaccard (simple_tokens e.title) (simple_tokens a.title)))

instance instDecEqExceptEntry : DecidableEq (Except String (Option Entry)) := fun x y =>
  match x, y with
  | .error a, .error b =>
    if h : a = b then .isTrue (h ▸ rfl) else .isFalse (fun he => h (Except.error.inj he))
  | .ok a, .ok b =>
    if h : a = b then .isTrue (h ▸ rfl) else .isFalse (fun he => h (Except.ok.inj he))
  | .error _, .ok _ => .isFalse (fun he => Except.noConfusion he)
  | .ok _, .error _ => .isFalse (fun he => Except.noConfusion he)

/-- `generate.pick_candidate` (lines 142–178).  The network is an oracle
`fetch` from feed URL to its parsed entries, and `rnd` stands in for
`random.choice` (the chosen index, taken modulo the pool size). -/
def pick_candidate (fetch : String → List Entry) (rnd : Nat) (cfg : Config)
    (processed : List String) (articles : List Article) :
    Except String (Option Entry) :=
  if cfg.reddit_rss = [] then
    .error "config.feeds.reddit_rss is empty. Add at least one RSS URL."
  else
    let prev_tok := prevTok articles
    let candidates := ((cfg.reddit_rss.map fetch).flatten.filter
      (fun e => !entryExcluded cfg.blocked_keywords processed prev_tok e)).map setImg
    if candidates = [] then .ok none
    else if cfg.pick_random then .ok (candidates.get? (rnd % candidates.length))
    else .ok candidates.head?

/-! ### `generate.related_articles` -/

/-- The scored pipeline of `generate.related_articles`, keeping each
article's archive index: score every article whose id differs from the
current one, sort by descending similarity (Python's stable
`sort(key=..., reverse=True)` is modelled as a merge sort breaking ties by
the archive index), take the first `k`, keep those with similarity above
0.05. -/
def related_scored (current : Article) (articles : List Article) (k : Nat) :
    List (ℚ × Nat × Article) :=
  let cur_tok := simple_tokens current.title
  let scored := (articles.enum.filter (fun ia => decide (ia.2.id ≠ current.id))).map
    (fun ia => (jaccard cur_tok (simple_tokens ia.2.title), ia.1, ia.2))
  let sorted := scored.mergeSort (fun x y =>
    decide (y.1 < x.1 ∨ (x.1 = y.1 ∧ x.2.1 ≤ y.2.1)))
  (sorted.take k).filter (fun x => decide ((0.05 : ℚ) < x.1))

/-- `generate.related_articles` (default `k = 6`). -/
def related_articles (current : Article) (articles : List Article)
    (k : Nat := 6) : List Article :=
  (related_scored current articles k).map (fun x => x.2.2)

/-! ### Processed-link file (`load_processed` / `append_processed`) -/

/-- The characters at which Python `str.splitlines()` breaks a line (ASCII
range): `\n`, `\r`, `\x0b`, `\x0c`, `\x1c`, `\x1d`, `\x1e`; the pair `\r\n`
counts as a single break. -/
def isLineBreak (c : Char) : Bool :=
  decide (c = '\n' ∨ c = '\r' ∨ c = '\x0b' ∨ c = '\x0c' ∨
    c = '\x1c' ∨ c = '\x1d' ∨ c = '\x1e')

/-- Split at each line-break character, treating `\r\n` as one break and
keeping empty segments (always at least one segment). -/
def splitBreaks : List Char → List (List Char)
  | [] => [[]]
  | '\r' :: '\n' :: cs => [] :: splitBreaks cs
  | c :: cs =>
    if isLineBreak c then [] :: splitBreaks cs
    else
      match splitBreaks cs with
      | [] => [[c]]
      | s :: rest => (c :: s) :: rest

/-- Split at every single line-break character, with no `\r\n` pairing.
This differs from `splitBreaks` only by an extra empty segment after each
`\r` of an `\r\n` pair, which the blank-line filter of `load_processed`
discards; it is the splitter the reasoning below uses. -/
def splitAll : List Char → List (List Char)
  | [] => [[]]
  | c :: cs =>
    if isLineBreak c then [] :: splitAll cs
    else
      match splitAll cs with
      | [] => [[c]]
      | s :: rest => (c :: s) :: rest

/-- Python `str.splitlines()` (ASCII behaviour): split at the line-break
characters, `\r\n` counting once, and drop the final empty segment when the
text ends with a line break (or is empty). -/
def splitlines (l : List Char) : List (List Char) :=
  let segs := splitBreaks l
  if segs.getLast? = some [] then segs.dropLast else segs

/-- `generate.load_processed`: the normalized nonblank lines of
`processed_urls.txt` (the Python set is modelled as the list of its
members). -/
def load_processed (txt : String) : List String :=
  ((splitlines txt.data).filter (fun l => decide (pyStrip l ≠ []))).map
    (fun l => normalize_url (String.mk l))

/-- The normalized nonblank lines of a list of raw line segments (the body
of `load_processed`, abstracted over the segment list for reasoning). -/
def loadSegs (segs : List (List Char)) : List String :=
  (segs.filter (fun l => decide (pyStrip l ≠ []))).map
    (fun l => normalize_url (String.mk l))

/-- `generate.append_processed`: normalize, no-op when already present,
otherwise append the normalized URL as a line to the rstripped text. -/
def append_processed (txt url : String) : String :=
  let u := normalize_url url
  if u ∈ load_processed txt then txt
  else
    let current := String.mk (pyRstrip txt.data)
    let current := if pyStrip current.data ≠ [] then current ++ "\n" else current
    current ++ u ++ "\n"

/-- A URL in the shape the processed-link file can faithfully store: it is
nonempty, contains no line-break character (`\n`, `\r`, `\x0b`, `\x0c`,
`\x1c`–`\x1e`), carries no outer whitespace, and is a fixed point of
normalization (every ordinary URL qualifies). -/
def goodLink (u : String) : Prop :=
  u ≠ "" ∧ (∀ c ∈ u.data, isLineBreak c = false) ∧
    pyStrip u.data = u.data ∧ normalize_url u = u

instance : DecidablePred goodLink := fun u => by
  unfold goodLink
  infer_instance

/-! ### `generate.main` as a one-shot run over explicit state -/

/-- The observable actions of one run, in program order. -/
inductive Event where
  | readConfig
  | readProcessed
  | readArticles
  | fetchFeed (url : String)
  | generate
  | writeProcessed
  | writeArticles
  | buildSite
  | writeLastRun
  | writeFlag
deriving DecidableEq, Repr

/-- The `data/last_run.json` payload (the timestamp and homepage fields are
derived from the clock and config and omitted). -/
structure LastRun where
  created : Bool := false
  article_url : String := ""
  article_path : String := ""
  article_title : String := ""
  source_url : String := ""
  note : String := ""
deriving DecidableEq, Repr

/-- The state `main` starts from, with oracles for everything external:
the filesystem (`lite_ran`, `config_exists`, `processed_text`, `articles0`),
the network (`fetch`), randomness (`rnd`), the model output (`llm_out`),
the `slugify` library call (`slugResult`) and the clock (`ymd`, `ts_iso`,
`ts_int`). -/
structure MainInput where
  lite_ran : Bool := false
  config_exists : Bool := true
  cfg : Config := {}
  processed_text : String := ""
  articles0 : List Article := []
  fetch : String → List Entry := fun _ => []
  rnd : Nat := 0
  llm_out : String := ""
  slugResult : String := ""
  ymd : String := ""
  ts_iso : String := ""
  ts_int : Nat := 0

/-- The observable outcome of one run: the events performed in order, the
process outcome, and the final filesystem state. -/
structure RunResult where
  events : List Event
  outcome : Except String Unit
  processed_text : String
  articles : List Article
  site : Option (List Article)
  last_run : Option LastRun
  lite_flag : Bool

/-- The slug of the new article: the first 80 characters of the `slugify`
result (an oracle for the external library call), or a timestamp-based
fallback when that is empty. -/
def mainSlug (inp : MainInput) : String :=
  let slug0 := inp.slugResult.data.take 80
  if slug0 ≠ [] then String.mk slug0 else "post-" ++ toString inp.ts_int

/-- The site-relative path of the new article. -/
def mainPath (inp : MainInput) : String :=
  "/articles/" ++ inp.ymd ++ "-" ++ mainSlug inp ++ ".html"

/-- The configured base URL with trailing slashes removed. -/
def mainBase (inp : MainInput) : String :=
  String.mk ((inp.cfg.base_url.data.reverse.dropWhile (fun c => decide (c = '/'))).reverse)

/-- The archive record `main` builds for the chosen candidate. -/
def mainEntry (inp : MainInput) (cand : Entry) : Article :=
  let parsed := deepseek_parse inp.llm_out cand.title
  { id := inp.ymd ++ "-" ++ mainSlug inp,
    title := if parsed.1 ≠ "" then parsed.1 else cand.title,
    path := mainPath inp,
    published_ts := inp.ts_iso,
    source_url := cand.link,
    rss := cand.rss,
    summary := cand.summary,
    body_html := parsed.2,
    hero_image := cand.image_url,
    hero_image_kind := if cand.image_kind = "" then "none" else cand.image_kind }

/-- `generate.main` (lines 403–454): the one-shot guard first, then config
loading and validation, state loading, candidate picking, and either the
no-candidate rebuild or the article-creation path. -/
def mainRun (inp : MainInput) : RunResult :=
  if inp.lite_ran then
    { events := [], outcome := .error "Lite edition: this repository can only be executed once.",
      processed_text := inp.processed_text, articles := inp.articles0,
      site := none, last_run := none, lite_flag := true }
  else if inp.config_exists = false then
    { events := [.readConfig], outcome := .error "config.json not found",
      processed_text := inp.processed_text, articles := inp.articles0,
      site := none, last_run := none, lite_flag := false }
  else if String.mk (pyStrip inp.cfg.base_url.data) = "" then
    { events := [.readConfig], outcome := .error "config.site.base_url is missing",
      processed_text := inp.processed_text, articles := inp.articles0,
      site := none, last_run := none, lite_flag := false }
  else
    let processed := load_processed inp.processed_text
    let ev0 := [Event.readConfig, Event.readProcessed, Event.readArticles]
    match pick_candidate inp.fetch inp.rnd inp.cfg processed inp.articles0 with
    | .error msg =>
      { events := ev0, outcome := .error msg,
        processed_text := inp.processed_text, articles := inp.articles0,
        site := none, last_run := none, lite_flag := false }
    | .ok none =>
      { events := ev0 ++ (inp.cfg.reddit_rss.map Event.fetchFeed)
          ++ [Event.buildSite, Event.writeLastRun, Event.writeFlag],
        outcome := .ok (),
        processed_text := inp.processed_text, articles := inp.articles0,
        site := some inp.articles0,
        last_run := some { created := false, note := "No new candidate found. Site rebuilt." },
        lite_flag := true }
    | .ok (some cand) =>
      let entry := mainEntry inp cand
      let processed_text := append_processed inp.processed_text cand.link
      let articles := entry :: inp.articles0
      { events := ev0 ++ (inp.cfg.reddit_rss.map Event.fetchFeed)
          ++ [Event.generate, Event.writeProcessed, Event.writeArticles,
              Event.buildSite, Event.writeLastRun, Event.writeFlag],
        outcome := .ok (),
        processed_text := processed_text, articles := articles,
        site := some articles,
        last_run := some ({ created := true,
                            article_url := mainBase inp ++ mainPath inp,
                            article_path := mainPath inp,
                            article_title := cand.title,
                            source_url := cand.link } : LastRun),
        lite_flag := true }

/-- A concrete run input whose single feed entry has a link that normalizes
to a string ending in a space (`http://x/a ?q` → `http://x/a `). -/
def c8badInput : MainInput :=
  { cfg := { reddit_rss := ["f"], base_url := "https://s.io" },
    fetch := fun _ => [{ title := "t", link := "http://x/a ?q" }] }

/-- A concrete run input whose single feed entry has an ordinary link. -/
def c8goodInput : MainInput :=
  { cfg := { reddit_rss := ["f"], base_url := "https://s.io" },
    fetch := fun _ => [{ title := "t", link := "http://x/b" }] }

/-- Reference definition of Jaccard similarity, written from the spec's
words: 1.0 when both sets are empty, 0.0 when exactly one is empty,
`card (a ∩ b) / card (a ∪ b)` otherwise. -/
def jaccard_reference (a b : Finset String) : ℚ :=
  if a = ∅ ∧ b = ∅ then 1
  else if a = ∅ ∨ b = ∅ then 0
  else ((a ∩ b).card : ℚ) / ((a ∪ b).card : ℚ)

/-! ### General helper lemmas -/

theorem dropWhile_length_le (p : Char → Bool) (l : List Char) :
    (l.dropWhile p).length ≤ l.length := by
  induction l with
  | nil => simp
  | cons c cs ih =>
    by_cases h : p c
    · simp only [List.dropWhile, h]
      exact Nat.le_trans ih (Nat.le_succ _)
    · simp [List.dropWhile, h]

/-! ### Claim C9: Jaccard similarity -/

/-- C9: `jaccard` agrees with the reference definition (1.0 for two empty
sets, 0.0 for exactly one empty set, intersection over union otherwise), and
`jaccard` of the token sets `a b` and `b c` is `1/3`. -/
theorem claim_C9_jaccard (a b : Finset String) :
    jaccard a b = jaccard_reference a b ∧
    jaccard {"a", "b"} {"b", "c"} = 1 / 3 := by
  constructor
  · unfold jaccard jaccard_reference
    by_cases hab : a = ∅ ∧ b = ∅
    · simp [hab]
    · simp only [hab, if_false]
      by_cases hor : a = ∅ ∨ b = ∅
      · simp [hor]
      · have ha : a ≠ ∅ := fun h => hor (Or.inl h)
        have hne : (a ∪ b).card ≠ 0 := by
          simp only [ne_eq, Finset.card_eq_zero]
          intro h
          exact ha (Finset.union_eq_empty.mp h).1
        simp [hor, hne]
  · have h1 : (({"a", "b"} ∩ {"b", "c"} : Finset String)).card = 1 := by decide
    have h2 : (({"a", "b"} ∪ {"b", "c"} : Finset String)).card = 3 := by decide
    have hne : ¬(({"a", "b"} : Finset String) = ∅ ∧ ({"b", "c"} : Finset String) = ∅) := by
      decide
    have hor : ¬(({"a", "b"} : Finset String) = ∅ ∨ ({"b", "c"} : Finset String) = ∅) := by
      decide
    simp only [jaccard, hne, hor, if_false, h1, h2]
    norm_num

theorem claim_C9_jaccard_witness :
    jaccard ∅ ∅ = jaccard_reference ∅ ∅ ∧
    jaccard {"a", "b"} {"b", "c"} = 1 / 3 :=
  claim_C9_jaccard ∅ ∅

/-! ### Claim C2: token extraction -/

/-- C2 counterexample: the claim's concrete token set for
"The Big-Bad Test 2024" omits "the", but the code keeps every token of
length strictly greater than 2, and "the" has length 3. -/
theorem claim_C2_counterexample :
    simple_tokens "The Big-Bad Test 2024" ≠
      ({"big", "bad", "test", "2024"} : Finset String) := by decide

/-- C2 amended: token extraction lowercases its input, replaces every
character outside `[a-z0-9]` and whitespace, splits on whitespace, and keeps
exactly the tokens of length strictly greater than 2 (so every produced
token has length greater than 2); in particular for "The Big-Bad Test 2024"
the token set is exactly the five tokens including the three-letter "the". -/
theorem claim_C2_tokens (s : String) :
    (∀ t ∈ simple_tokens s, 2 < t.length) ∧
    simple_tokens "The Big-Bad Test 2024" =
      ({"the", "big", "bad", "test", "2024"} : Finset String) := by
  constructor
  · intro t ht
    simp only [simple_tokens, List.mem_toFinset, List.mem_map] at ht
    obtain ⟨p, hp, rfl⟩ := ht
    exact of_decide_eq_true (List.mem_filter.mp hp).2
  · decide

theorem claim_C2_tokens_witness :
    (2 < ("test" : String).length) ∧
    simple_tokens "The Big-Bad Test 2024" =
      ({"the", "big", "bad", "test", "2024"} : Finset String) :=
  ⟨(claim_C2_tokens "The Big-Bad Test 2024").1 "test" (by decide),
   (claim_C2_tokens "The Big-Bad Test 2024").2⟩

/-! ### Claim C3: image allowlist -/

/-- C3 counterexample: a URL hosted on `evil.example` whose path merely
contains `i.redd.it/` is accepted by the allowlist, refuting "accepts only
URLs hosted on one of the two trusted hosts". -/
theorem claim_C3_counterexample :
    safe_image "https://evil.example/i.redd.it/x.png" =
      "https://evil.example/i.redd.it/x.png" ∧
    urlHost "https://evil.example/i.redd.it/x.png" = "evil.example" ∧
    urlHost "https://evil.example/i.redd.it/x.png" ≠ "i.redd.it" ∧
    urlHost "https://evil.example/i.redd.it/x.png" ≠ "preview.redd.it" := by
  decide

/-- C3 amended: the allowlist accepts a candidate image URL exactly when the
stripped URL contains `i.redd.it/` or `preview.redd.it/` as a substring
(not a host check); an accepted URL is returned stripped, any other URL
yields the empty hero image, and the accepted image is classified
`reddit_image` when `i.redd.it/` occurs in it, else `reddit_preview` when
`preview.redd.it/` occurs, else `none`. -/
theorem claim_C3_allowlist (url : String) :
    (safe_image url = "" ↔
      ¬(containsSub "i.redd.it/".data (pyStrip url.data) = true ∨
        containsSub "preview.redd.it/".data (pyStrip url.data) = true)) ∧
    (safe_image url ≠ "" → safe_image url = String.mk (pyStrip url.data)) ∧
    hero_image_kind_of (safe_image url) =
      (if containsSub "i.redd.it/".data (pyStrip url.data) then "reddit_image"
       else if containsSub "preview.redd.it/".data (pyStrip url.data) then "reddit_preview"
       else "none") := by
  by_cases h0 : url = ""
  · subst h0
    exact ⟨by decide, by decide, by decide⟩
  · have hmk : ∀ u : List Char, u ≠ [] → String.mk u ≠ "" := by
      intro u hu h
      exact hu (by simpa using congrArg String.data h)
    have hcne : ∀ (pat : List Char) (c : Char) (ps : List Char),
        pat = c :: ps → ∀ u, containsSub pat u = true → u ≠ [] := by
      intro pat c ps hp u hc h
      subst h; subst hp
      simp [containsSub, headSub] at hc
    by_cases h1 : containsSub "i.redd.it/".data (pyStrip url.data) = true
    · have hne := hcne "i.redd.it/".data 'i' _ rfl _ h1
      refine ⟨?_, ?_, ?_⟩
      · simp [safe_image, h0, h1, hmk _ hne]
      · intro _
        simp [safe_image, h0, h1]
      · simp [safe_image, hero_image_kind_of, h0, h1]
    · by_cases h2 : containsSub "preview.redd.it/".data (pyStrip url.data) = true
      · have hne := hcne "preview.redd.it/".data 'p' _ rfl _ h2
        refine ⟨?_, ?_, ?_⟩
        · simp [safe_image, h0, h1, h2, hmk _ hne]
        · intro _
          simp [safe_image, h0, h1, h2]
        · simp [safe_image, hero_image_kind_of, h0, h1, h2]
      · refine ⟨?_, ?_, ?_⟩
        · simp [safe_image, h0, h1, h2]
        · intro h
          simp [safe_image, h0, h1, h2] at h
        · simp [safe_image, hero_image_kind_of, h0, h1, h2, containsSub, headSub]

theorem claim_C3_allowlist_witness :
    safe_image "https://i.redd.it/abc.jpg" =
      String.mk (pyStrip "https://i.redd.it/abc.jpg".data) ∧
    hero_image_kind_of (safe_image "https://i.redd.it/abc.jpg") = "reddit_image" :=
  ⟨(claim_C3_allowlist "https://i.redd.it/abc.jpg").2.1 (by decide),
   ((claim_C3_allowlist "https://i.redd.it/abc.jpg").2.2).trans (by decide)⟩

/-! ### Claim C4: sanitization lemmas -/

theorem matchFrom_length {p x r : List Char} (h : matchFrom p x = some r) :
    r.length ≤ x.length := by
  induction p generalizing x with
  | nil =>
    cases x with
    | nil =>
      simp only [matchFrom, bdry, Option.some.injEq] at h
      simp [← h]
    | cons d rest =>
      simp only [matchFrom, bdry] at h
      split at h
      · exact absurd h (by simp)
      · simp only [Option.some.injEq] at h
        simp [← h]
  | cons t ps ih =>
    cases x with
    | nil => exact absurd h (by simp [matchFrom])
    | cons x xs =>
      simp only [matchFrom] at h
      split at h
      · exact Nat.le_trans (ih h) (Nat.le_succ _)
      · exact absurd h (by simp)

theorem tryMatch_length {l r : List Char} (h : tryMatch l = some r) :
    r.length < l.length := by
  cases l with
  | nil => simp [tryMatch] at h
  | cons c cs =>
    simp only [tryMatch] at h
    split at h
    · have h1 := matchFrom_length h
      have h2 := dropWhile_length_le pyIsSpace cs
      simp only [List.length_cons]
      omega
    · simp at h

theorem subScriptF_fuel {f g : Nat} {l : List Char} (hf : l.length ≤ f)
    (hg : l.length ≤ g) : subScriptF f l = subScriptF g l := by
  induction f generalizing g l with
  | zero =>
    have : l = [] := List.eq_nil_of_length_eq_zero (Nat.le_zero.mp hf)
    subst this
    cases g <;> rfl
  | succ f ih =>
    cases l with
    | nil => cases g <;> rfl
    | cons c cs =>
      have hg1 : 1 ≤ g := by simp at hg; omega
      obtain ⟨g, rfl⟩ : ∃ g', g = g' + 1 := ⟨g - 1, by omega⟩
      have hcs : cs.length ≤ f := by simpa using Nat.le_of_succ_le_succ hf
      have hcg : cs.length ≤ g := by simpa using Nat.le_of_succ_le_succ hg
      cases htm : tryMatch (c :: cs) with
      | some rest =>
        have hr := tryMatch_length htm
        simp only [List.length_cons] at hr hf hg
        have h1 : rest.length ≤ f := by omega
        have h2 : rest.length ≤ g := by omega
        simp only [subScriptF, htm]
        rw [ih h1 h2]
      | none =>
        simp only [subScriptF, htm]
        rw [ih hcs hcg]

theorem subScriptF_of_not_hasMatch {f : Nat} {l : List Char} (hf : l.length ≤ f)
    (h : hasMatch l = false) : subScriptF f l = l := by
  induction f generalizing l with
  | zero => rfl
  | succ f ih =>
    cases l with
    | nil => rfl
    | cons c cs =>
      have hcs : cs.length ≤ f := by simpa using Nat.le_of_succ_le_succ hf
      cases htm : tryMatch (c :: cs) with
      | some rest => simp [hasMatch, htm] at h
      | none =>
        simp only [hasMatch, htm, Option.isSome_none, Bool.false_or] at h
        simp [subScriptF, htm, ih hcs h]

theorem hasMatch_append {pre X : List Char} (h : ∀ c ∈ pre, c ≠ '<') :
    hasMatch (pre ++ X) = hasMatch X := by
  induction pre with
  | nil => rfl
  | cons p ps ih =>
    have hp : p ≠ '<' := h p (by simp)
    have htm : tryMatch (p :: (ps ++ X)) = none := by simp [tryMatch, hp]
    simp [hasMatch, htm, ih (fun c hc => h c (by simp [hc]))]

theorem dropWhile_subScriptF {f : Nat} {l : List Char} (hf : l.length ≤ f) :
    (subScriptF f l).dropWhile pyIsSpace = subScriptF f (l.dropWhile pyIsSpace) := by
  induction f generalizing l with
  | zero =>
    have : l = [] := List.eq_nil_of_length_eq_zero (Nat.le_zero.mp hf)
    subst this
    rfl
  | succ f ih =>
    cases l with
    | nil => rfl
    | cons c cs =>
      have hcs : cs.length ≤ f := by simpa using Nat.le_of_succ_le_succ hf
      by_cases hsp : pyIsSpace c = true
      · have hc : c ≠ '<' := by
          intro he
          subst he
          exact absurd hsp (by decide)
        have htm : tryMatch (c :: cs) = none := by simp [tryMatch, hc]
        have hdw : (cs.dropWhile pyIsSpace).length ≤ f :=
          le_trans (dropWhile_length_le _ _) hcs
        simp only [subScriptF, htm, List.dropWhile, hsp]
        rw [ih hcs]
        exact subScriptF_fuel hdw (le_trans hdw (Nat.le_succ _))
      · simp only [List.dropWhile, hsp]
        cases htm : tryMatch (c :: cs) with
        | some rest =>
          have hamp : pyIsSpace '&' = false := by decide
          simp [subScriptF, htm, scriptRepl, List.dropWhile, hamp]
        | none =>
          simp [subScriptF, htm, List.dropWhile, hsp]

theorem matchFrom_subScriptF {f : Nat} :
    ∀ {p X : List Char}, (∀ t ∈ p, pyWordChar t = true) → X.length ≤ f →
      matchFrom p X = none → matchFrom p (subScriptF f X) = none := by
  induction f with
  | zero =>
    intro p X _ hf h
    have : X = [] := List.eq_nil_of_length_eq_zero (Nat.le_zero.mp hf)
    subst this
    exact h
  | succ f ih =>
    intro p X hw hf h
    cases X with
    | nil => exact h
    | cons x xs =>
      have hxs : xs.length ≤ f := by simpa using Nat.le_of_succ_le_succ hf
      cases htm : tryMatch (x :: xs) with
      | some rest =>
        have hx : x = '<' := by
          by_contra hx
          simp [tryMatch, hx] at htm
        cases p with
        | nil =>
          exfalso
          subst hx
          simp [matchFrom, bdry, pyWordChar] at h
        | cons t ps =>
          have ht := hw t (by simp)
          have hne : ('&' : Char) ≠ t := by
            intro he
            rw [← he] at ht
            exact absurd ht (by decide)
          simp [subScriptF, htm, scriptRepl, matchFrom, hne]
      | none =>
        cases p with
        | nil =>
          by_cases hword : pyWordChar x = true
          · simp [subScriptF, htm, matchFrom, bdry, hword]
          · simp [matchFrom, bdry, hword] at h
        | cons t ps =>
          by_cases hxt : x.toLower = t
          · have h' : matchFrom ps xs = none := by simpa [matchFrom, hxt] using h
            have hw' : ∀ u ∈ ps, pyWordChar u = true := fun u hu => hw u (by simp [hu])
            simp [subScriptF, htm, matchFrom, hxt, ih hw' hxs h']
          · simp [subScriptF, htm, matchFrom, hxt]

theorem hasMatch_subScriptF {f : Nat} :
    ∀ {l : List Char}, l.length ≤ f → hasMatch (subScriptF f l) = false := by
  induction f with
  | zero =>
    intro l hf
    have : l = [] := List.eq_nil_of_length_eq_zero (Nat.le_zero.mp hf)
    subst this
    rfl
  | succ f ih =>
    intro l hf
    cases l with
    | nil => rfl
    | cons c cs =>
      have hcs : cs.length ≤ f := by simpa using Nat.le_of_succ_le_succ hf
      cases htm : tryMatch (c :: cs) with
      | some rest =>
        have hr := tryMatch_length htm
        simp only [List.length_cons] at hr hf
        have hrest : rest.length ≤ f := by omega
        have hrepl : ∀ x ∈ scriptRepl, x ≠ '<' := by decide
        simp only [subScriptF, htm]
        rw [hasMatch_append hrepl]
        exact ih hrest
      | none =>
        have htail := ih hcs
        by_cases hc : c = '<'
        · subst hc
          have h0 : matchFrom scriptPat (cs.dropWhile pyIsSpace) = none := by
            simpa [tryMatch] using htm
          have hdw := dropWhile_subScriptF hcs (l := cs)
          have hlen : (cs.dropWhile pyIsSpace).length ≤ f :=
            le_trans (dropWhile_length_le _ _) hcs
          have hG : matchFrom scriptPat (subScriptF f (cs.dropWhile pyIsSpace)) = none :=
            matchFrom_subScriptF (by decide) hlen h0
          simp [subScriptF, htm, hasMatch, tryMatch, h0, hdw, hG, htail]
        · simp [subScriptF, htm, hasMatch, tryMatch, hc, htail]

/-! ### Claim C4: sanitization -/

/-- C4 counterexample: the body "< script" does not contain the literal
`<script` yet is rewritten, and the body "<scripty" is returned unchanged
while containing the literal `<script` (the regex requires a word
boundary).  Both refute the claim as stated. -/
theorem claim_C4_counterexample :
    (sanitize_llm_html "< script" ≠ "< script" ∧
      containsSub "<script".data "< script".data = false) ∧
    (sanitize_llm_html "<scripty" = "<scripty" ∧
      containsSub "<script".data (sanitize_llm_html "<scripty").data = true) := by
  decide

/-- C4 amended: sanitization rewrites every occurrence of the script-opener
pattern — `<`, optional whitespace, then `script` case-insensitively at a
word boundary — into the escaped form `&lt;script`, so the output contains no
occurrence of that pattern; and every body containing no occurrence of that
pattern is returned unchanged. -/
theorem claim_C4_sanitize (s : String) :
    hasMatch (sanitize_llm_html s).data = false ∧
    (hasMatch s.data = false → sanitize_llm_html s = s) := by
  constructor
  · exact hasMatch_subScriptF (le_refl _)
  · intro h
    obtain ⟨d⟩ := s
    exact congrArg String.mk (subScriptF_of_not_hasMatch (le_refl _) h)

theorem claim_C4_sanitize_witness :
    hasMatch (sanitize_llm_html "<p>hello</p>").data = false ∧
    sanitize_llm_html "<p>hello</p>" = "<p>hello</p>" :=
  ⟨(claim_C4_sanitize "<p>hello</p>").1,
   (claim_C4_sanitize "<p>hello</p>").2 (by decide)⟩

/-! ### Claim C5: model-output parsing lemmas -/

theorem pyLstrip_eq_self {l : List Char}
    (h : ∀ c, l.head? = some c → pyIsSpace c = false) : pyLstrip l = l := by
  cases l with
  | nil => rfl
  | cons c cs => simp [pyLstrip, List.dropWhile, h c rfl]

theorem pyRstrip_eq_self {l : List Char}
    (h : ∀ c, l.getLast? = some c → pyIsSpace c = false) : pyRstrip l = l := by
  cases hr : l.reverse with
  | nil =>
    have hl : l = [] := by simpa using congrArg List.reverse hr
    subst hl
    rfl
  | cons c cs =>
    have hc : l.getLast? = some c := by
      rw [← List.head?_reverse, hr]
      rfl
    calc pyRstrip l = ((c :: cs).dropWhile pyIsSpace).reverse := by rw [pyRstrip, hr]
    _ = (c :: cs).reverse := by simp [List.dropWhile, h c hc]
    _ = l := by rw [← hr, List.reverse_reverse]

theorem pyStrip_eq_self {l : List Char}
    (hh : ∀ c, l.head? = some c → pyIsSpace c = false)
    (hl : ∀ c, l.getLast? = some c → pyIsSpace c = false) : pyStrip l = l := by
  unfold pyStrip
  rw [pyLstrip_eq_self hh, pyRstrip_eq_self hl]

theorem head_form {l : List Char} {d : Char} (h : pyIsSpace (l.headD d) = false) :
    ∀ c, l.head? = some c → pyIsSpace c = false := by
  intro c hc
  rw [List.headD_eq_head?, hc] at h
  exact h

theorem last_form {l : List Char} {d : Char} (h : pyIsSpace (l.getLastD d) = false) :
    ∀ c, l.getLast? = some c → pyIsSpace c = false := by
  intro c hc
  rw [List.getLastD_eq_getLast?, hc] at h
  exact h

theorem takeWhile_append_stop {l x : List Char} {p : Char → Bool}
    (h : ∃ c ∈ l, p c = false) : (l ++ x).takeWhile p = l.takeWhile p := by
  induction l with
  | nil =>
    obtain ⟨c, hc, _⟩ := h
    simp at hc
  | cons a as ih =>
    by_cases ha : p a = true
    · have hex : ∃ c ∈ as, p c = false := by
        obtain ⟨c, hc, hcf⟩ := h
        rcases List.mem_cons.mp hc with rfl | hmem
        · exact absurd ha (by simp [hcf])
        · exact ⟨c, hmem, hcf⟩
      simp [List.takeWhile_cons, ha, ih hex]
    · simp [List.takeWhile_cons, ha]

theorem findTitle_append {B : List Char} (hB : B.takeWhile pyIsSpace = []) :
    ∀ (L acc : List Char), L ≠ [] → '\n' ∉ L →
      (∀ c, L.getLast? = some c → pyIsSpace c = false) →
      findTitle acc (L ++ '\n' :: '\n' :: B) = some (acc ++ L, B) := by
  intro L
  induction L with
  | nil => intro acc h; exact absurd rfl h
  | cons c L ih =>
    intro acc _ hn hlast
    cases L with
    | nil =>
      have hsep : sepMatch ('\n' :: '\n' :: B) = some B := by
        have hnl : pyIsSpace '\n' = true := by decide
        simp [sepMatch, List.takeWhile_cons, hnl, hB, List.count_cons]
      simp [findTitle, hsep]
    | cons d L' =>
      have htail : (d :: L') ≠ [] := by simp
      have hlast' : ∀ e, (d :: L').getLast? = some e → pyIsSpace e = false := by
        intro e he
        exact hlast e (by rw [List.getLast?_cons_cons]; exact he)
      have hn' : '\n' ∉ (d :: L') := fun hm => hn (List.mem_cons_of_mem _ hm)
      have hnone : sepMatch ((d :: L') ++ '\n' :: '\n' :: B) = none := by
        have hex : ∃ e ∈ d :: L', pyIsSpace e = false :=
          ⟨_, List.getLast_mem htail, hlast' _ (List.getLast?_eq_getLast _ htail)⟩
        have h1 : ((d :: L') ++ '\n' :: '\n' :: B).takeWhile pyIsSpace
            = (d :: L').takeWhile pyIsSpace := takeWhile_append_stop hex
        have h2 : ((d :: L').takeWhile pyIsSpace).count '\n' = 0 := by
          rw [List.count_eq_zero]
          intro hm
          exact hn' ((List.takeWhile_sublist _).subset hm)
        unfold sepMatch
        rw [h1]
        simp [h2]
      have hrec := ih (acc ++ [c]) htail hn' hlast'
      have hstep : findTitle acc (c :: ((d :: L') ++ '\n' :: '\n' :: B))
          = findTitle (acc ++ [c]) ((d :: L') ++ '\n' :: '\n' :: B) := by
        show (match sepMatch ((d :: L') ++ '\n' :: '\n' :: B) with
          | some b => some (acc ++ [c], b)
          | none => findTitle (acc ++ [c]) ((d :: L') ++ '\n' :: '\n' :: B)) =
          findTitle (acc ++ [c]) ((d :: L') ++ '\n' :: '\n' :: B)
        rw [hnone]
      have hassoc : (c :: d :: L') ++ '\n' :: '\n' :: B
          = c :: ((d :: L') ++ '\n' :: '\n' :: B) := rfl
      rw [hassoc, hstep, hrec]
      simp

/-! ### Claim C5: model-output parsing -/

/-- C5 counterexample: the output beginning with a lowercase `title:` does
not have the exact two-part format whose first line is `TITLE: <text>`, yet
the code's case-insensitive regex parses it instead of falling back to the
candidate's original title and the whole output. -/
theorem claim_C5_counterexample :
    deepseek_parse "title: Foo\n\n<p>Body</p>" "Orig" = ("Foo", "<p>Body</p>") ∧
    deepseek_parse "title: Foo\n\n<p>Body</p>" "Orig" ≠
      ("Orig", "title: Foo\n\n<p>Body</p>") := by
  decide

/-- C5 amended: the stripped model output is matched against the lenient
two-part pattern — `TITLE:` case-insensitively, optional whitespace, a
shortest nonempty title group, then a blank separator line that may contain
whitespace — and on a match the result is the whitespace-stripped title and
the remainder after the separator (sanitized); otherwise the result is the
stripped candidate title together with the entire stripped output
(sanitized).  In particular a well-formed output `TITLE: t`, blank line,
body yields exactly `(t, body sanitized)`. -/
theorem claim_C5_parse :
    (∀ t b orig : String,
      t.data ≠ [] → '\n' ∉ t.data →
      pyIsSpace (t.data.headD 'x') = false →
      pyIsSpace (t.data.getLastD 'x') = false →
      b.data ≠ [] →
      pyIsSpace (b.data.headD 'x') = false →
      pyIsSpace (b.data.getLastD 'x') = false →
      deepseek_parse ("TITLE: " ++ t ++ "\n\n" ++ b) orig = (t, sanitize_llm_html b)) ∧
    (∀ out orig : String, deepseekMatch (pyStrip out.data) = none →
      deepseek_parse out orig =
        (String.mk (pyStrip orig.data), sanitize_llm_html (String.mk (pyStrip out.data)))) := by
  constructor
  · intro t b orig ht0 htn hthD htlD hb0 hbhD hblD
    obtain ⟨L⟩ := t
    obtain ⟨B⟩ := b
    simp only [String.data] at ht0 htn hthD htlD hb0 hbhD hblD
    have hth := head_form hthD
    have htl := last_form htlD
    have hbh := head_form hbhD
    have hbl := last_form hblD
    have hdata : ("TITLE: " ++ String.mk L ++ "\n\n" ++ String.mk B).data
        = 'T' :: 'I' :: 'T' :: 'L' :: 'E' :: ':' :: ' ' :: (L ++ '\n' :: '\n' :: B) := by
      simp [String.data_append]
    obtain ⟨hd, tl, rfl⟩ : ∃ hd tl, L = hd :: tl := by
      cases L with
      | nil => exact absurd rfl ht0
      | cons hd tl => exact ⟨hd, tl, rfl⟩
    obtain ⟨bh, bt, rfl⟩ : ∃ bh bt, B = bh :: bt := by
      cases B with
      | nil => exact absurd rfl hb0
      | cons bh bt => exact ⟨bh, bt, rfl⟩
    have hhd : pyIsSpace hd = false := hth hd rfl
    have hbhead : pyIsSpace bh = false := hbh bh rfl
    have hBtw : (bh :: bt).takeWhile pyIsSpace = [] := by
      simp [List.takeWhile_cons, hbhead]
    have hstrip : pyStrip ("TITLE: " ++ String.mk (hd :: tl) ++ "\n\n"
        ++ String.mk (bh :: bt)).data
        = 'T' :: 'I' :: 'T' :: 'L' :: 'E' :: ':' :: ' '
            :: ((hd :: tl) ++ '\n' :: '\n' :: (bh :: bt)) := by
      rw [hdata]
      apply pyStrip_eq_self
      · intro c hc
        simp only [List.head?] at hc
        cases hc
        decide
      · intro c hc
        apply hbl c
        rw [show ('T' :: 'I' :: 'T' :: 'L' :: 'E' :: ':' :: ' '
            :: ((hd :: tl) ++ '\n' :: '\n' :: (bh :: bt)))
          = ('T' :: 'I' :: 'T' :: 'L' :: 'E' :: ':' :: ' '
            :: ((hd :: tl) ++ ['\n', '\n'])) ++ (bh :: bt) from by simp,
          List.getLast?_append] at hc
        have hg := List.getLast?_eq_getLast (bh :: bt) (by simp)
        rw [hg] at hc
        exact hg.trans hc
    have hhdr : titleHeader ('T' :: 'I' :: 'T' :: 'L' :: 'E' :: ':' :: ' '
        :: ((hd :: tl) ++ '\n' :: '\n' :: (bh :: bt)))
        = some (' ' :: ((hd :: tl) ++ '\n' :: '\n' :: (bh :: bt))) := by
      simp [titleHeader]
    have hm : (' ' :: ((hd :: tl) ++ '\n' :: '\n' :: (bh :: bt))).takeWhile pyIsSpace
        = [' '] := by
      have hsp : pyIsSpace ' ' = true := by decide
      simp [List.takeWhile_cons, hsp, hhd]
    have hft := findTitle_append hBtw (hd :: tl) [] (by simp) htn htl
    have hmatch : deepseekMatch ('T' :: 'I' :: 'T' :: 'L' :: 'E' :: ':' :: ' '
        :: ((hd :: tl) ++ '\n' :: '\n' :: (bh :: bt)))
        = some (hd :: tl, bh :: bt) := by
      simp only [deepseekMatch, hhdr, hm, List.length_cons, List.length_nil,
        List.drop_succ_cons, List.drop_zero]
      rw [show ([] : List Char) ++ (hd :: tl) = hd :: tl from rfl] at hft
      rw [hft]
    simp only [deepseek_parse, hstrip, hmatch]
    rw [pyStrip_eq_self hth htl, pyStrip_eq_self hbh hbl]
  · intro out orig h
    simp [deepseek_parse, h]

/-! ### Claim C10: empty feed list -/

/-- C10: with an empty feed list (a missing key is defaulted to the empty
list by the loader), `pick_candidate` raises a configuration error instead
of returning none. -/
theorem claim_C10_empty_feeds (fetch : String → List Entry) (rnd : Nat)
    (cfg : Config) (processed : List String) (articles : List Article)
    (h : cfg.reddit_rss = []) :
    pick_candidate fetch rnd cfg processed articles =
      .error "config.feeds.reddit_rss is empty. Add at least one RSS URL." := by
  simp [pick_candidate, h]

theorem claim_C10_empty_feeds_witness :
    pick_candidate (fun _ => []) 0 {} [] [] =
      .error "config.feeds.reddit_rss is empty. Add at least one RSS URL." :=
  claim_C10_empty_feeds (fun _ => []) 0 {} [] [] rfl

/-! ### Claim C1: candidate picking -/

theorem head?_filter_eq_find? {α : Type} (p : α → Bool) (l : List α) :
    (l.filter p).head? = l.find? p := by
  induction l with
  | nil => rfl
  | cons a as ih =>
    by_cases h : p a
    · simp [List.filter_cons, List.find?_cons, h]
    · simp [List.filter_cons, List.find?_cons, h, ih]

theorem head?_map_eq {α β : Type} (f : α → β) (l : List α) :
    (l.map f).head? = l.head?.map f := by
  cases l <;> rfl

/-- C1 counterexample: a candidate whose title has an empty token set,
against an archive containing an article with an empty title.  By the
claim's exclusion rule the Jaccard similarity of the two (empty) token sets
is 1.0 ≥ 0.78, so the candidate is excluded and the pick should be none;
the code filters out empty past titles before comparing and returns the
candidate. -/
theorem claim_C1_counterexample :
    pick_candidate (fun _ => [{ title := "ab", link := "http://x/a" }]) 0
        { reddit_rss := ["f"] } [] [{ title := "" }] =
      .ok (some (setImg { title := "ab", link := "http://x/a" })) ∧
    claimExcluded [] [] [{ title := "" }] { title := "ab", link := "http://x/a" } = true := by
  constructor
  · decide
  · have hj : jaccard (simple_tokens "ab") (simple_tokens "") = 1 := by
      rw [show simple_tokens "ab" = (∅ : Finset String) from by decide,
        show simple_tokens "" = (∅ : Finset String) from by decide]
      simp [jaccard]
    have hle : (0.78 : ℚ) ≤ 1 := by norm_num
    simp [claimExcluded, hj, hle]

/-- C1 amended: with random pick disabled and a nonempty feed list,
`pick_candidate` returns (with the image fields set) the first entry in
feed-then-entry order that is not excluded, where an entry is excluded
exactly when its normalized link is empty or already processed, its title
contains a blocked keyword case-insensitively, or its title's token set has
Jaccard similarity at least 0.78 with the token set of some past article's
**nonempty** title; it returns none when every entry is excluded. -/
theorem claim_C1_pick (fetch : String → List Entry) (rnd : Nat) (cfg : Config)
    (processed : List String) (articles : List Article)
    (hrand : cfg.pick_random = false) (hne : cfg.reddit_rss ≠ []) :
    pick_candidate fetch rnd cfg processed articles =
      .ok (((cfg.reddit_rss.map fetch).flatten.find?
        (fun e => !entryExcluded cfg.blocked_keywords processed (prevTok articles) e)).map
          setImg) := by
  simp only [pick_candidate, if_neg hne]
  by_cases hc : (((cfg.reddit_rss.map fetch).flatten.filter
      (fun e => !entryExcluded cfg.blocked_keywords processed (prevTok articles) e)).map
        setImg) = []
  · rw [if_pos hc]
    have h2 : ((cfg.reddit_rss.map fetch).flatten.filter
        (fun e => !entryExcluded cfg.blocked_keywords processed (prevTok articles) e)) = [] := by
      simpa using hc
    rw [← head?_filter_eq_find?, h2]
    rfl
  · rw [if_neg hc]
    have hpr : ¬(cfg.pick_random = true) := by simp [hrand]
    rw [if_neg hpr, head?_map_eq, head?_filter_eq_find?]

theorem claim_C1_pick_witness :
    pick_candidate (fun _ => [{ title := "Hello World Post", link := "http://x/a" }]) 0
        { reddit_rss := ["f"] } [] [] =
      .ok (some (setImg { title := "Hello World Post", link := "http://x/a" })) :=
  (claim_C1_pick (fun _ => [{ title := "Hello World Post", link := "http://x/a" }]) 0
    { reddit_rss := ["f"] } [] [] rfl (by decide)).trans (by decide)

/-! ### Claim C6: related articles -/

/-- C6: the related-articles list for an article excludes the article
itself (any article with the current id is filtered), contains only entries
whose title-token Jaccard similarity with the current title is above 0.05,
has at most 6 elements, and the underlying scored list — whose projection
the result is — is ordered by strictly descending similarity with ties
broken by strictly increasing archive index. -/
theorem claim_C6_related (current : Article) (articles : List Article) :
    current ∉ related_articles current articles 6 ∧
    (∀ x ∈ related_scored current articles 6,
      (0.05 : ℚ) < x.1 ∧
      x.1 = jaccard (simple_tokens current.title) (simple_tokens x.2.2.title) ∧
      x.2.2.id ≠ current.id) ∧
    related_articles current articles 6 =
      (related_scored current articles 6).map (fun x => x.2.2) ∧
    (related_articles current articles 6).length ≤ 6 ∧
    (related_scored current articles 6).Pairwise
      (fun x y => y.1 < x.1 ∨ (x.1 = y.1 ∧ x.2.1 < y.2.1)) := by
  set cur_tok := simple_tokens current.title with hcur
  set f : Nat × Article → ℚ × Nat × Article :=
    fun ia => (jaccard cur_tok (simple_tokens ia.2.title), ia.1, ia.2) with hf
  set g : Nat × Article → Bool := fun ia => decide (ia.2.id ≠ current.id) with hg
  set le : (ℚ × Nat × Article) → (ℚ × Nat × Article) → Bool :=
    fun x y => decide (y.1 < x.1 ∨ (x.1 = y.1 ∧ x.2.1 ≤ y.2.1)) with hle
  have hscored : related_scored current articles 6 =
      ((((articles.enum.filter g).map f).mergeSort le).take 6).filter
        (fun x => decide ((0.05 : ℚ) < x.1)) := rfl
  have hmem : ∀ x ∈ related_scored current articles 6,
      (0.05 : ℚ) < x.1 ∧ x ∈ (articles.enum.filter g).map f := by
    intro x hx
    rw [hscored] at hx
    obtain ⟨hx1, hx2⟩ := List.mem_filter.mp hx
    refine ⟨by simpa using hx2, ?_⟩
    have hx3 := List.mem_of_mem_take hx1
    exact ((List.mergeSort_perm ((articles.enum.filter g).map f) le).mem_iff).mp hx3
  have hshape : ∀ x ∈ related_scored current articles 6,
      (0.05 : ℚ) < x.1 ∧
      x.1 = jaccard cur_tok (simple_tokens x.2.2.title) ∧
      x.2.2.id ≠ current.id := by
    intro x hx
    obtain ⟨h05, hxm⟩ := hmem x hx
    obtain ⟨ia, hia, rfl⟩ := List.mem_map.mp hxm
    obtain ⟨_, hid⟩ := List.mem_filter.mp hia
    exact ⟨h05, rfl, by simpa [hg] using hid⟩
  refine ⟨?_, hshape, rfl, ?_, ?_⟩
  · intro hcurmem
    obtain ⟨x, hx, hxc⟩ := List.mem_map.mp hcurmem
    exact ((hshape x hx).2.2) (by rw [hxc])
  · calc (related_articles current articles 6).length
        = (related_scored current articles 6).length := by
          simp [related_articles]
    _ ≤ (((((articles.enum.filter g).map f).mergeSort le).take 6)).length := by
          rw [hscored]
          exact List.length_filter_le _ _
    _ ≤ 6 := List.length_take_le _ _
  · have htrans : ∀ a b c, le a b = true → le b c = true → le a c = true := by
      intro a b c h1 h2
      simp only [hle, decide_eq_true_eq] at h1 h2 ⊢
      rcases h1 with h1 | ⟨e1, i1⟩ <;> rcases h2 with h2 | ⟨e2, i2⟩
      · exact Or.inl (h2.trans h1)
      · exact Or.inl (e2 ▸ h1)
      · exact Or.inl (e1 ▸ h2)
      · exact Or.inr ⟨e1.trans e2, i1.trans i2⟩
    have htotal : ∀ a b, (le a b || le b a) = true := by
      intro a b
      simp only [hle, Bool.or_eq_true, decide_eq_true_eq]
      rcases lt_trichotomy a.1 b.1 with h | h | h
      · exact Or.inr (Or.inl h)
      · rcases Nat.le_total a.2.1 b.2.1 with hi | hi
        · exact Or.inl (Or.inr ⟨h, hi⟩)
        · exact Or.inr (Or.inr ⟨h.symm, hi⟩)
      · exact Or.inl (Or.inl h)
    have hsorted := List.sorted_mergeSort htrans htotal ((articles.enum.filter g).map f)
    have hidx0 : (articles.enum).Pairwise (fun a b => a.1 ≠ b.1) := by
      have h1 : (List.map Prod.fst articles.enum).Nodup := by
        rw [List.enum_map_fst]
        exact List.nodup_range _
      exact List.pairwise_map.mp h1
    have hidx1 : ((articles.enum.filter g).map f).Pairwise
        (fun x y => x.2.1 ≠ y.2.1) := by
      apply List.pairwise_map.mpr
      exact (hidx0.filter g).imp (fun h => h)
    have hidx2 : (((articles.enum.filter g).map f).mergeSort le).Pairwise
        (fun x y => x.2.1 ≠ y.2.1) := by
      refine ((List.mergeSort_perm _ le).pairwise_iff ?_).mpr hidx1
      exact fun h => Ne.symm h
    have hcomb := hsorted.and hidx2
    have hstrict : (((articles.enum.filter g).map f).mergeSort le).Pairwise
        (fun x y => y.1 < x.1 ∨ (x.1 = y.1 ∧ x.2.1 < y.2.1)) := by
      refine hcomb.imp ?_
      intro a b hab
      obtain ⟨hab1, hab2⟩ := hab
      simp only [hle, decide_eq_true_eq] at hab1
      rcases hab1 with h | ⟨e, i⟩
      · exact Or.inl h
      · exact Or.inr ⟨e, lt_of_le_of_ne i hab2⟩
    rw [hscored]
    exact ((hstrict.sublist (List.take_sublist _ _)).filter _)

theorem claim_C6_related_witness :
    ({ id := "me", title := "t" } : Article) ∉
      related_articles { id := "me", title := "t" } [] 6 ∧
    (∀ x ∈ related_scored { id := "me", title := "t" } [] 6,
      (0.05 : ℚ) < x.1 ∧
      x.1 = jaccard (simple_tokens ({ id := "me", title := "t" } : Article).title)
        (simple_tokens x.2.2.title) ∧
      x.2.2.id ≠ ({ id := "me", title := "t" } : Article).id) ∧
    related_articles { id := "me", title := "t" } [] 6 =
      (related_scored { id := "me", title := "t" } [] 6).map (fun x => x.2.2) ∧
    (related_articles { id := "me", title := "t" } [] 6).length ≤ 6 ∧
    (related_scored { id := "me", title := "t" } [] 6).Pairwise
      (fun x y => y.1 < x.1 ∨ (x.1 = y.1 ∧ x.2.1 < y.2.1)) :=
  claim_C6_related { id := "me", title := "t" } []

/-! ### Claim C7: one-shot guard -/

/-- C7: when the one-shot marker from a prior run is present, the run fails
with the re-entrancy error as its very first action: no event (file read or
write, feed fetch, generation call or site build) is performed, and the
filesystem state is untouched. -/
theorem claim_C7_one_shot (inp : MainInput) (h : inp.lite_ran = true) :
    (mainRun inp).events = [] ∧
    (mainRun inp).outcome =
      .error "Lite edition: this repository can only be executed once." ∧
    (mainRun inp).processed_text = inp.processed_text ∧
    (mainRun inp).articles = inp.articles0 ∧
    (mainRun inp).site = none ∧
    (mainRun inp).last_run = none := by
  simp [mainRun, h]

theorem claim_C7_one_shot_witness :
    (mainRun { lite_ran := true }).events = [] ∧
    (mainRun { lite_ran := true }).outcome =
      .error "Lite edition: this repository can only be executed once." ∧
    (mainRun { lite_ran := true }).processed_text =
      (({ lite_ran := true } : MainInput)).processed_text ∧
    (mainRun { lite_ran := true }).articles =
      (({ lite_ran := true } : MainInput)).articles0 ∧
    (mainRun { lite_ran := true }).site = none ∧
    (mainRun { lite_ran := true }).last_run = none :=
  claim_C7_one_shot { lite_ran := true } rfl

/-! ### Claim C8: processed-link file lemmas -/

theorem splitAll_ne_nil (l : List Char) : splitAll l ≠ [] := by
  cases l with
  | nil => simp [splitAll]
  | cons c cs =>
    by_cases h : isLineBreak c = true
    · simp [splitAll, h]
    · simp only [splitAll, if_neg h]
      cases hs : splitAll cs <;> simp

theorem splitAll_brk {c : Char} (h : isLineBreak c = true) (cs : List Char) :
    splitAll (c :: cs) = [] :: splitAll cs := by
  simp [splitAll, h]

theorem splitAll_chr {c : Char} (h : isLineBreak c = false) {cs s : List Char}
    {rest : List (List Char)} (hs : splitAll cs = s :: rest) :
    splitAll (c :: cs) = (c :: s) :: rest := by
  simp [splitAll, h, hs]

theorem splitBreaks_rn (cs : List Char) :
    splitBreaks ('\r' :: '\n' :: cs) = [] :: splitBreaks cs := rfl

theorem splitBreaks_cr {d : Char} (hd : d ≠ '\n') (cs' : List Char) :
    splitBreaks ('\r' :: d :: cs') = [] :: splitBreaks (d :: cs') := by
  have hr : isLineBreak '\r' = true := by decide
  rw [splitBreaks.eq_def]
  split
  · simp_all
  · simp_all
  · next _ c₂ cs₂ _ heq =>
    injection heq with he1 he2
    subst he1
    subst he2
    rw [if_pos hr]

theorem splitBreaks_brk {c : Char} (h1 : c ≠ '\r') (h2 : isLineBreak c = true)
    (cs : List Char) : splitBreaks (c :: cs) = [] :: splitBreaks cs := by
  rw [splitBreaks.eq_def]
  split
  · simp_all
  · simp_all
  · next _ c₂ cs₂ _ heq =>
    injection heq with he1 he2
    subst he1
    subst he2
    rw [if_pos h2]

theorem splitBreaks_chr {c : Char} (h : isLineBreak c = false) {cs s : List Char}
    {rest : List (List Char)} (hs : splitBreaks cs = s :: rest) :
    splitBreaks (c :: cs) = (c :: s) :: rest := by
  have h1 : c ≠ '\r' := by
    intro he
    rw [he] at h
    exact absurd h (by decide)
  rw [splitBreaks.eq_def]
  split
  · simp_all
  · simp_all
  · next _ c₂ cs₂ _ heq =>
    injection heq with he1 he2
    subst he1
    subst he2
    rw [if_neg (by simp [h]), hs]

theorem loadSegs_cons (x : List Char) (segs : List (List Char)) :
    loadSegs (x :: segs) =
      (if pyStrip x = [] then [] else [normalize_url (String.mk x)]) ++ loadSegs segs := by
  by_cases h : pyStrip x = []
  · simp [loadSegs, List.filter_cons, h]
  · simp [loadSegs, List.filter_cons, h]

theorem loadSegs_cons_empty (segs : List (List Char)) :
    loadSegs ([] :: segs) = loadSegs segs := by
  simp [loadSegs, List.filter_cons, pyStrip, pyLstrip, pyRstrip]

theorem splitBreaks_splitAll_rel :
    ∀ (n : Nat) (l : List Char), l.length ≤ n → ∃ s rest rest',
      splitBreaks l = s :: rest ∧ splitAll l = s :: rest' ∧
      loadSegs rest = loadSegs rest' := by
  intro n
  induction n with
  | zero =>
    intro l hl
    have : l = [] := List.length_eq_zero.mp (Nat.le_zero.mp hl)
    subst this
    exact ⟨[], [], [], rfl, rfl, rfl⟩
  | succ n ih =>
    have heq : ∀ m : List Char, m.length ≤ n →
        loadSegs (splitBreaks m) = loadSegs (splitAll m) := by
      intro m hm
      obtain ⟨s₁, r₁, r₁', hb, ha, hl⟩ := ih m hm
      rw [hb, ha, loadSegs_cons, loadSegs_cons, hl]
    intro l hl
    cases l with
    | nil => exact ⟨[], [], [], rfl, rfl, rfl⟩
    | cons c cs =>
      have hcs : cs.length ≤ n := Nat.le_of_succ_le_succ hl
      by_cases hcr : c = '\r'
      · subst hcr
        cases cs with
        | nil => exact ⟨[], [[]], [[]], rfl, rfl, rfl⟩
        | cons d cs' =>
          have hcs' : cs'.length ≤ n := Nat.le_of_succ_le (by simpa using hcs)
          by_cases hd : d = '\n'
          · subst hd
            refine ⟨[], splitBreaks cs', [] :: splitAll cs', splitBreaks_rn cs', ?_, ?_⟩
            · rw [splitAll_brk (by decide), splitAll_brk (by decide)]
            · rw [loadSegs_cons_empty]
              exact heq cs' hcs'
          · refine ⟨[], splitBreaks (d :: cs'), splitAll (d :: cs'),
              splitBreaks_cr hd cs', splitAll_brk (by decide) _, heq (d :: cs') hcs⟩
      · by_cases hbk : isLineBreak c = true
        · exact ⟨[], splitBreaks cs, splitAll cs,
            splitBreaks_brk hcr hbk cs, splitAll_brk hbk cs, heq cs hcs⟩
        · have hbk' : isLineBreak c = false := by
            revert hbk
            cases isLineBreak c <;> simp
          obtain ⟨s, rest, rest', hb, ha, hl'⟩ := ih cs hcs
          exact ⟨c :: s, rest, rest', splitBreaks_chr hbk' hb,
            splitAll_chr hbk' ha, hl'⟩

theorem splitBreaks_ne_nil (l : List Char) : splitBreaks l ≠ [] := by
  obtain ⟨s, rest, rest', hb, -, -⟩ := splitBreaks_splitAll_rel l.length l le_rfl
  rw [hb]
  simp

theorem loadSegs_splitBreaks (l : List Char) :
    loadSegs (splitBreaks l) = loadSegs (splitAll l) := by
  obtain ⟨s, rest, rest', hb, ha, hl⟩ := splitBreaks_splitAll_rel l.length l le_rfl
  rw [hb, ha, loadSegs_cons, loadSegs_cons, hl]

theorem splitAll_append_break {b : Char} (hb : isLineBreak b = true) (x y : List Char) :
    splitAll (x ++ b :: y) = splitAll x ++ splitAll y := by
  induction x with
  | nil => simp [splitAll, hb]
  | cons c cs ih =>
    by_cases h : isLineBreak c = true
    · simp [splitAll, h, ih]
    · cases hs : splitAll cs with
      | nil => exact absurd hs (splitAll_ne_nil cs)
      | cons s rest => simp [splitAll, h, ih, hs]

theorem splitAll_no_break {l : List Char} (h : ∀ c ∈ l, isLineBreak c = false) :
    splitAll l = [l] := by
  induction l with
  | nil => rfl
  | cons c cs ih =>
    have hc : isLineBreak c = false := h c (List.mem_cons_self c cs)
    have hcs : ∀ d ∈ cs, isLineBreak d = false := fun d hd => h d (List.mem_cons_of_mem _ hd)
    simp [splitAll, hc, ih hcs]

theorem splitAll_concat {w : Char} (hw : isLineBreak w = false) :
    ∀ l : List Char, ∃ ss s, splitAll l = ss ++ [s] ∧
      splitAll (l ++ [w]) = ss ++ [s ++ [w]] := by
  intro l
  induction l with
  | nil => exact ⟨[], [], rfl, by simp [splitAll, hw]⟩
  | cons c cs ih =>
    obtain ⟨ss, s, h1, h2⟩ := ih
    by_cases h : isLineBreak c = true
    · exact ⟨[] :: ss, s, by simp [splitAll, h, h1], by simp [splitAll, h, h2]⟩
    · cases ss with
      | nil =>
        simp only [List.nil_append] at h1 h2
        refine ⟨[], c :: s, ?_, ?_⟩
        · simp [splitAll, h, h1]
        · simp [splitAll, h, h2]
      | cons s₀ ss' =>
        refine ⟨(c :: s₀) :: ss', s, ?_, ?_⟩
        · simp [splitAll, h, h1]
        · simp [splitAll, h, h2]

theorem loadSegs_append (a b : List (List Char)) :
    loadSegs (a ++ b) = loadSegs a ++ loadSegs b := by
  simp [loadSegs, List.filter_append]

theorem loadSegs_splitlines (l : List Char) :
    loadSegs (splitlines l) = loadSegs (splitBreaks l) := by
  show loadSegs (if (splitBreaks l).getLast? = some []
    then (splitBreaks l).dropLast else splitBreaks l) = loadSegs (splitBreaks l)
  by_cases h : (splitBreaks l).getLast? = some []
  · rw [if_pos h]
    have hne := splitBreaks_ne_nil l
    have hdec := List.dropLast_append_getLast hne
    have hlast : (splitBreaks l).getLast hne = [] := by
      have := List.getLast?_eq_getLast _ hne
      rw [this] at h
      exact (Option.some.inj h).symm ▸ rfl
    conv_rhs => rw [← hdec]
    rw [hlast, loadSegs_append]
    simp [loadSegs, pyStrip, pyLstrip, pyRstrip]
  · rw [if_neg h]

theorem load_processed_eq (txt : String) :
    load_processed txt = loadSegs (splitAll txt.data) := by
  rw [show load_processed txt = loadSegs (splitlines txt.data) from rfl,
    loadSegs_splitlines, loadSegs_splitBreaks]

theorem pyStrip_concat_ws {w : Char} (hw : pyIsSpace w = true) (x : List Char) :
    pyStrip (x ++ [w]) = pyStrip x := by
  unfold pyStrip pyLstrip
  rw [List.dropWhile_append]
  by_cases h : (x.dropWhile pyIsSpace).isEmpty = true
  · rw [if_pos h]
    have hx : x.dropWhile pyIsSpace = [] := by simpa [List.isEmpty_iff] using h
    rw [hx]
    simp [List.dropWhile, hw, pyRstrip]
  · rw [if_neg h]
    unfold pyRstrip
    rw [List.reverse_append]
    simp only [List.reverse_cons, List.reverse_nil, List.nil_append, List.singleton_append,
      List.dropWhile]
    rw [hw]
    simp

theorem normalize_mk_concat_ws {w : Char} (hw : pyIsSpace w = true) (x : List Char) :
    normalize_url (String.mk (x ++ [w])) = normalize_url (String.mk x) := by
  unfold normalize_url
  rw [show (String.mk (x ++ [w])).data = x ++ [w] from rfl,
    show (String.mk x).data = x from rfl, pyStrip_concat_ws hw]

theorem loadSegs_step {w : Char} (hw : pyIsSpace w = true) (l : List Char) :
    loadSegs (splitAll (l ++ [w])) = loadSegs (splitAll l) := by
  by_cases h : isLineBreak w = true
  · rw [show l ++ [w] = l ++ w :: [] from rfl, splitAll_append_break h,
      loadSegs_append]
    simp [splitAll, loadSegs, pyStrip, pyLstrip, pyRstrip]
  · have h' : isLineBreak w = false := by
      revert h
      cases isLineBreak w <;> simp
    obtain ⟨ss, s, h1, h2⟩ := splitAll_concat h' l
    rw [h1, h2, loadSegs_append, loadSegs_append]
    congr 1
    by_cases hs : pyStrip s = []
    · simp [loadSegs, pyStrip_concat_ws hw, hs]
    · simp [loadSegs, pyStrip_concat_ws hw, hs, normalize_mk_concat_ws hw]

theorem loadSegs_append_ws {W : List Char} (hW : ∀ c ∈ W, pyIsSpace c = true) :
    ∀ l : List Char, loadSegs (splitAll (l ++ W)) = loadSegs (splitAll l) := by
  induction W using List.reverseRecOn with
  | nil => simp
  | append_singleton W' w ih =>
    intro l
    have hw : pyIsSpace w = true := hW w (by simp)
    have hW' : ∀ c ∈ W', pyIsSpace c = true := fun c hc => hW c (by simp [hc])
    rw [← List.append_assoc, loadSegs_step hw, ih hW']

theorem loadSegs_rstrip (l : List Char) :
    loadSegs (splitAll (pyRstrip l)) = loadSegs (splitAll l) := by
  have hdec : l = pyRstrip l ++ (l.reverse.takeWhile pyIsSpace).reverse := by
    conv_lhs => rw [← List.reverse_reverse l,
      ← List.takeWhile_append_dropWhile pyIsSpace l.reverse]
    rw [List.reverse_append]
    rfl
  have hW : ∀ c ∈ (l.reverse.takeWhile pyIsSpace).reverse, pyIsSpace c = true := by
    intro c hc
    exact List.mem_takeWhile_imp (List.mem_reverse.mp hc)
  conv_rhs => rw [hdec]
  rw [loadSegs_append_ws hW]

theorem dropWhile_head_false {p : Char → Bool} :
    ∀ {l : List Char} {c : Char} {rest : List Char},
      l.dropWhile p = c :: rest → p c = false := by
  intro l
  induction l with
  | nil =>
    intro c rest h
    simp [List.dropWhile] at h
  | cons a as ih =>
    intro c rest h
    by_cases ha : p a
    · rw [List.dropWhile_cons, if_pos ha] at h
      exact ih h
    · rw [List.dropWhile_cons, if_neg ha] at h
      have h1 : a = c := (List.cons.inj h).1
      rw [← h1]
      revert ha
      cases p a <;> simp

theorem pyRstrip_structure (l : List Char) :
    pyRstrip l = [] ∨ ∃ r c, pyRstrip l = r ++ [c] ∧ pyIsSpace c = false := by
  unfold pyRstrip
  cases h : l.reverse.dropWhile pyIsSpace with
  | nil => exact Or.inl rfl
  | cons c rest =>
    exact Or.inr ⟨rest.reverse, c, by simp, dropWhile_head_false h⟩

theorem pyLstrip_concat_ne {c : Char} (hc : pyIsSpace c = false) (x : List Char) :
    ∃ z, pyLstrip (x ++ [c]) = z ++ [c] := by
  unfold pyLstrip
  rw [List.dropWhile_append]
  by_cases h : (x.dropWhile pyIsSpace).isEmpty = true
  · rw [if_pos h]
    exact ⟨[], by simp [List.dropWhile, hc]⟩
  · rw [if_neg h]
    exact ⟨x.dropWhile pyIsSpace, rfl⟩

theorem pyRstrip_concat_ne {c : Char} (hc : pyIsSpace c = false) (z : List Char) :
    pyRstrip (z ++ [c]) = z ++ [c] := by
  unfold pyRstrip
  rw [List.reverse_append]
  simp only [List.reverse_cons, List.reverse_nil, List.nil_append, List.singleton_append,
    List.dropWhile]
  rw [hc]
  simp

theorem pyStrip_rstrip_empty {l : List Char} (h : pyStrip (pyRstrip l) = []) :
    pyRstrip l = [] := by
  rcases pyRstrip_structure l with h0 | ⟨r, c, hrc, hc⟩
  · exact h0
  · exfalso
    rw [hrc] at h
    unfold pyStrip at h
    obtain ⟨z, hz⟩ := pyLstrip_concat_ne hc r
    rw [hz, pyRstrip_concat_ne hc] at h
    simp at h

theorem mk_eq_empty_iff (l : List Char) : String.mk l = "" ↔ l = [] := by
  constructor
  · intro h
    simpa using congrArg String.data h
  · intro h
    subst h
    rfl

theorem loadSegs_nil_seg : loadSegs [[]] = [] := by
  simp [loadSegs, pyStrip, pyLstrip, pyRstrip]

theorem load_append_processed (txt url : String)
    (hnot : normalize_url url ∉ load_processed txt) :
    load_processed (append_processed txt url) =
      load_processed txt ++ loadSegs (splitAll (normalize_url url).data) := by
  have hnl : isLineBreak '\n' = true := by decide
  unfold append_processed
  rw [if_neg hnot]
  show load_processed
      ((if pyStrip (String.mk (pyRstrip txt.data)).data ≠ []
        then String.mk (pyRstrip txt.data) ++ "\n"
        else String.mk (pyRstrip txt.data)) ++ normalize_url url ++ "\n") = _
  by_cases hC : pyStrip (String.mk (pyRstrip txt.data)).data ≠ []
  · rw [if_pos hC]
    have hdata : ((String.mk (pyRstrip txt.data) ++ "\n") ++ normalize_url url ++ "\n").data
        = pyRstrip txt.data ++ '\n' :: ((normalize_url url).data ++ ['\n']) := by
      simp [String.data_append]
    rw [load_processed_eq, hdata, splitAll_append_break hnl,
      show (normalize_url url).data ++ ['\n'] = (normalize_url url).data ++ '\n' :: [] from rfl,
      splitAll_append_break hnl, loadSegs_append, loadSegs_append]
    rw [show splitAll [] = [[]] from rfl, loadSegs_nil_seg, List.append_nil,
      loadSegs_rstrip, ← load_processed_eq]
  · rw [if_neg hC]
    have hr : pyRstrip txt.data = [] := by
      apply pyStrip_rstrip_empty
      simpa using hC
    have hdata : ((String.mk (pyRstrip txt.data)) ++ normalize_url url ++ "\n").data
        = (normalize_url url).data ++ ['\n'] := by
      simp [String.data_append, hr]
    rw [load_processed_eq, hdata,
      show (normalize_url url).data ++ ['\n'] = (normalize_url url).data ++ '\n' :: [] from rfl,
      splitAll_append_break hnl, loadSegs_append]
    rw [show splitAll [] = [[]] from rfl, loadSegs_nil_seg, List.append_nil]
    have hload : load_processed txt = [] := by
      rw [load_processed_eq, ← loadSegs_rstrip, hr]
      exact loadSegs_nil_seg
    rw [hload, List.nil_append]

theorem loadSegs_good {u : String} (hg : goodLink u) :
    loadSegs (splitAll u.data) = [u] := by
  obtain ⟨h1, h2, h3, h4⟩ := hg
  rw [splitAll_no_break h2]
  have hmk : String.mk u.data = u := by cases u; rfl
  have hne : u.data ≠ [] := by
    intro h
    exact h1 (by rw [← hmk, h])
  simp [loadSegs, h3, hne, hmk, h4]

theorem mem_of_head?_eq {α : Type} {l : List α} {a : α} (h : l.head? = some a) :
    a ∈ l := by
  cases l with
  | nil => simp at h
  | cons x xs =>
    simp only [List.head?, Option.some.injEq] at h
    exact h ▸ List.mem_cons_self x xs

theorem pick_candidate_some_shape {fetch : String → List Entry} {rnd : Nat}
    {cfg : Config} {processed : List String} {articles : List Article} {c : Entry}
    (h : pick_candidate fetch rnd cfg processed articles = .ok (some c)) :
    ∃ e ∈ (cfg.reddit_rss.map fetch).flatten,
      c = setImg e ∧
      entryExcluded cfg.blocked_keywords processed (prevTok articles) e = false := by
  by_cases h1 : cfg.reddit_rss = []
  · rw [pick_candidate, if_pos h1] at h
    exact absurd h (by simp)
  · simp only [pick_candidate, if_neg h1] at h
    by_cases h2 : (((cfg.reddit_rss.map fetch).flatten.filter
        (fun e => !entryExcluded cfg.blocked_keywords processed (prevTok articles) e)).map
          setImg) = []
    · rw [if_pos h2] at h
      exact absurd h (by simp)
    · rw [if_neg h2] at h
      have hc : c ∈ (((cfg.reddit_rss.map fetch).flatten.filter
          (fun e => !entryExcluded cfg.blocked_keywords processed (prevTok articles) e)).map
            setImg) := by
        by_cases h3 : cfg.pick_random = true
        · rw [if_pos h3] at h
          exact List.get?_mem (Except.ok.inj h)
        · rw [if_neg h3] at h
          exact mem_of_head?_eq (Except.ok.inj h)
      obtain ⟨e, he, rfl⟩ := List.mem_map.mp hc
      obtain ⟨hef, hep⟩ := List.mem_filter.mp he
      refine ⟨e, hef, rfl, ?_⟩
      simpa using hep

/-! ### Claim C8: the processed-link invariant -/

theorem claim_C5_parse_witness :
    deepseek_parse ("TITLE: " ++ "Foo Bar" ++ "\n\n" ++ "<p>Body</p>") "Orig" =
      ("Foo Bar", sanitize_llm_html "<p>Body</p>") :=
  claim_C5_parse.1 "Foo Bar" "<p>Body</p>" "Orig" (by decide) (by decide)
    (by decide) (by decide) (by decide) (by decide) (by decide)

end Pipeline
